import Mathlib

/-!
Verification of the coordination core of
`mark_duplicates_and_insert_sizes_for_TSO500_ichorCNA.py`.

The script partitions the scaffolds of a reference genome over a pool of
worker processes, runs an external duplicate-marking tool per scaffold,
collects the per-scaffold results over one channel per worker, reorders
them into the reference (header-declared) scaffold order, and concatenates
them; a separate metrics process is awaited with a wall-clock cap.

Python strings are embedded as `List Char`; Python lists as `List`;
Python `None`-or-value slots as `Option`; code that can raise as `Except`
or `Option`.  Every definition below is a direct translation of the named
lines of the Python source.
-/

/-- A scaffold name (Python `str`), embedded as a list of characters. -/
abbrev ScafName := List Char

/-- Errors raised by the coordination core of the script, one constructor
per `raise`/crash site that the claims mention. -/
inductive PipelineError where
  /-- `SubprocessError` raised at line 126 when `check_returncode` on the
  header pipeline fails.  The command is a `shell=True` pipeline ending in
  `awk`, so its exit status is awk's: `samtools` being unable to read the
  header is masked (grep and awk still exit 0, stdout is empty) and does
  NOT raise this error — only the pipeline's last command itself failing
  does. -/
  | subprocessError
  /-- `ZeroDivisionError` raised by `total_ref_length // processes`
  (line 134) when `processes = 0`. -/
  | zeroDivisionError
  /-- `TypeError` raised by `received_scaffold_files.extend(None)`
  (line 166) when a worker sent the failure marker `None`. -/
  | typeError
  /-- The intended failure report of lines 169-172, carrying the printed
  count of `None` entries. -/
  | partitioningFailed (count : Nat)
  /-- `ValueError` raised by `received_order.index(...)` (line 194) when a
  reference name matches no received path. -/
  | orderingMismatch
deriving DecidableEq, Repr

/-- A per-scaffold artifact file: `dir` stands for the enclosing scaffold
temporary directory (chosen with a random suffix at line 307, abstracted
to a number) and `stem` is the file name without its final extension,
exactly the string Python's `Path.stem` returns. -/
structure ScafFile where
  dir : Nat
  stem : List Char
deriving DecidableEq, Repr

/-- Helper for `splitOnDash`: push a non-separator character onto the
first piece of an already-split remainder. -/
def consToHead (c : Char) : List (List Char) → List (List Char)
  | [] => [[c]]
  | s :: ss => (c :: s) :: ss

/-- Python `s.split('-')` specialised to the one-character separator `'-'`:
split at every dash, keeping empty pieces, never returning an empty list
(`''.split('-') == ['']`). -/
def splitOnDash : List Char → List (List Char)
  | [] => [[]]
  | c :: rest =>
    if c = '-' then [] :: splitOnDash rest
    else consToHead c (splitOnDash rest)

/-- Python `lst[-1]` on the never-empty result of a split: the last
element, with `[]` as the (unreachable) default. -/
def lastOrNil : List (List Char) → List Char
  | [] => []
  | [x] => x
  | _ :: x :: rest => lastOrNil (x :: rest)

/-- `rcv_scaf_path.stem.split('-')[-1]` (line 193): the scaffold identity
a received path is assumed to embed after its last dash. -/
def embeddedScaffold (p : ScafFile) : List Char :=
  lastOrNil (splitOnDash p.stem)

/-- Python `lst.index(x)` for lists of names: index of the first
occurrence, `none` when absent (where CPython raises `ValueError`). -/
def pyIndex (l : List (List Char)) (x : List Char) : Option Nat :=
  match l with
  | [] => none
  | y :: rest => if y = x then some 0 else (pyIndex rest x).map (· + 1)

/-- One element of the comprehension at lines 194-195:
`received_scaffold_bam_paths[received_order.index(order_scaff)]`, with the
`ValueError` of a failed `index` (and the impossible out-of-range access)
surfaced as `orderingMismatch`. -/
def lookupByEmbedded (receivedOrder : List ScafName) (recvBams : List ScafFile)
    (nm : ScafName) : Except PipelineError ScafFile :=
  match pyIndex receivedOrder nm with
  | none => Except.error PipelineError.orderingMismatch
  | some i =>
    match recvBams[i]? with
    | some p => Except.ok p
    | none => Except.error PipelineError.orderingMismatch

/-- Lines 192-195: build `received_order` from the received scaffold BAM
paths and walk `reference_names`, picking for each reference name the
received path at the first index whose embedded scaffold matches; a
missing match is the `ValueError` at line 194. -/
def orderScaffoldPaths (referenceNames : List ScafName) (recvBams : List ScafFile) :
    Except PipelineError (List ScafFile) :=
  let receivedOrder := recvBams.map embeddedScaffold
  referenceNames.mapM (lookupByEmbedded receivedOrder recvBams)

/-- Line 309: a worker writes the duplicate-marked BAM for scaffold `s`
as `{output_bam.stem}-{scaffold}.bam` inside that scaffold's random
temporary directory, so the path's stem is `outStem ++ '-' :: s`. -/
def mkScafBam (outStem : List Char) (dirOf : ScafName → Nat) (s : ScafName) : ScafFile :=
  ⟨dirOf s, outStem ++ '-' :: s⟩

/-- Lines 310-311: the matching per-scaffold metrics file,
`{output_metrics_file.stem}-{scaffold}.{ext}` in the same directory. -/
def mkScafMetrics (metStem : List Char) (dirOf : ScafName → Nat) (s : ScafName) : ScafFile :=
  ⟨dirOf s, metStem ++ '-' :: s⟩

-- ### Basic facts about the split/last helpers

theorem splitOnDash_dash_cons (l : List Char) :
    splitOnDash ('-' :: l) = [] :: splitOnDash l := by
  simp [splitOnDash]

theorem splitOnDash_cons_of_ne {c : Char} (l : List Char) (hc : ¬c = '-') :
    splitOnDash (c :: l) = consToHead c (splitOnDash l) := by
  simp [splitOnDash, hc]

theorem splitOnDash_ne_nil (l : List Char) : splitOnDash l ≠ [] := by
  induction l with
  | nil => simp [splitOnDash]
  | cons c rest ih =>
    by_cases h : c = '-'
    · subst h; rw [splitOnDash_dash_cons]; simp
    · rw [splitOnDash_cons_of_ne rest h]
      cases hs : splitOnDash rest with
      | nil => simp [consToHead]
      | cons s ss => simp [consToHead]

theorem splitOnDash_no_dash {n : List Char} (h : '-' ∉ n) : splitOnDash n = [n] := by
  induction n with
  | nil => rfl
  | cons c rest ih =>
    have hc : ¬c = '-' := fun hc => h (hc ▸ List.mem_cons_self c rest)
    have hr : '-' ∉ rest := fun hm => h (List.mem_cons_of_mem c hm)
    rw [splitOnDash_cons_of_ne rest hc, ih hr]
    rfl

theorem two_le_splitOnDash_length {l : List Char} (h : '-' ∈ l) :
    2 ≤ (splitOnDash l).length := by
  induction l with
  | nil => cases h
  | cons c rest ih =>
    by_cases hc : c = '-'
    · subst hc
      rw [splitOnDash_dash_cons]
      have := splitOnDash_ne_nil rest
      cases hs : splitOnDash rest with
      | nil => exact absurd hs this
      | cons s ss => simp [hs]
    · have hr : '-' ∈ rest := by
        rcases List.mem_cons.mp h with h1 | h1
        · exact absurd h1.symm hc
        · exact h1
      have h2 := ih hr
      rw [splitOnDash_cons_of_ne rest hc]
      cases hs : splitOnDash rest with
      | nil => exact absurd hs (splitOnDash_ne_nil rest)
      | cons s ss =>
        rw [hs] at h2
        simpa [consToHead] using h2

theorem lastOrNil_cons_of_ne_nil {x : List Char} {L : List (List Char)} (h : L ≠ []) :
    lastOrNil (x :: L) = lastOrNil L := by
  cases L with
  | nil => exact absurd rfl h
  | cons y rest => rfl

/-- The embedded-identity round trip: if a scaffold name contains no dash,
splitting its path stem at dashes and taking the last piece recovers it. -/
theorem lastOrNil_splitOnDash_append {n : List Char} (a : List Char) (h : '-' ∉ n) :
    lastOrNil (splitOnDash (a ++ '-' :: n)) = n := by
  induction a with
  | nil =>
    rw [List.nil_append, splitOnDash_dash_cons,
      lastOrNil_cons_of_ne_nil (splitOnDash_ne_nil n), splitOnDash_no_dash h]
    rfl
  | cons c a' ih =>
    by_cases hc : c = '-'
    · subst hc
      rw [List.cons_append, splitOnDash_dash_cons,
        lastOrNil_cons_of_ne_nil (splitOnDash_ne_nil (a' ++ '-' :: n))]
      exact ih
    · have hmem : '-' ∈ a' ++ '-' :: n := List.mem_append_right a' (List.mem_cons_self _ _)
      have h2 := two_le_splitOnDash_length hmem
      rw [List.cons_append, splitOnDash_cons_of_ne _ hc]
      cases hs : splitOnDash (a' ++ '-' :: n) with
      | nil => exact absurd hs (splitOnDash_ne_nil _)
      | cons s ss =>
        rw [hs] at h2
        have hss : ss ≠ [] := by
          cases ss with
          | nil => simp at h2
          | cons t ts => simp
        rw [hs] at ih
        rw [lastOrNil_cons_of_ne_nil hss] at ih
        simp only [consToHead]
        rw [lastOrNil_cons_of_ne_nil hss]
        exact ih

theorem embeddedScaffold_mkScafBam {n : ScafName} (outStem : List Char)
    (dirOf : ScafName → Nat) (h : '-' ∉ n) :
    embeddedScaffold (mkScafBam outStem dirOf n) = n :=
  lastOrNil_splitOnDash_append outStem h

-- ### Basic facts about `pyIndex`

theorem pyIndex_nil (x : List Char) : pyIndex [] x = none := rfl

theorem pyIndex_cons (y : List Char) (rest : List (List Char)) (x : List Char) :
    pyIndex (y :: rest) x = if y = x then some 0 else (pyIndex rest x).map (· + 1) := rfl

theorem pyIndex_eq_none_iff {l : List (List Char)} {x : List Char} :
    pyIndex l x = none ↔ x ∉ l := by
  induction l with
  | nil => simp [pyIndex_nil]
  | cons y rest ih =>
    rw [pyIndex_cons]
    by_cases h : y = x
    · simp [h]
    · rw [if_neg h]
      cases hp : pyIndex rest x with
      | none =>
        rw [hp] at ih
        simp only [Option.map_none', List.mem_cons, true_iff]
        intro hmem
        rcases hmem with h1 | h1
        · exact h h1.symm
        · exact (ih.mp rfl) h1
      | some i =>
        rw [hp] at ih
        simp only [Option.map_some', List.mem_cons]
        constructor
        · intro hcontra; cases hcontra
        · intro hnot
          have hx : x ∈ rest := by
            by_contra hxr
            exact Option.some_ne_none i (ih.mpr hxr)
          exact absurd (Or.inr hx) hnot

theorem pyIndex_spec {l : List (List Char)} {x : List Char} {i : Nat}
    (h : pyIndex l x = some i) : i < l.length ∧ l.getD i [] = x := by
  induction l generalizing i with
  | nil => cases h
  | cons y rest ih =>
    rw [pyIndex_cons] at h
    by_cases hy : y = x
    · rw [if_pos hy] at h
      cases h
      exact ⟨Nat.succ_pos _, hy⟩
    · rw [if_neg hy] at h
      cases hp : pyIndex rest x with
      | none => rw [hp] at h; cases h
      | some j =>
        rw [hp] at h
        simp only [Option.map_some', Option.some.injEq] at h
        rcases ih hp with ⟨hlt, hget⟩
        subst h
        exact ⟨Nat.succ_lt_succ hlt, hget⟩

theorem pyIndex_isSome_of_mem {l : List (List Char)} {x : List Char} (h : x ∈ l) :
    ∃ i, pyIndex l x = some i := by
  cases hp : pyIndex l x with
  | none => exact absurd h (pyIndex_eq_none_iff.mp hp)
  | some i => exact ⟨i, rfl⟩

-- ### Generic evaluation lemmas for `List.mapM` over `Except`

theorem exceptBind_ok {α β ε : Type} (a : α) (f : α → Except ε β) :
    (Except.ok a >>= f) = f a := rfl

theorem exceptBind_error {α β ε : Type} (e : ε) (f : α → Except ε β) :
    ((Except.error e : Except ε α) >>= f) = Except.error e := rfl

theorem getD_eq_getElem_of_lt {α : Type} (l : List α) (d : α) {i : Nat} (h : i < l.length) :
    l.getD i d = l[i] := by
  simp [List.getD_eq_getElem?_getD, List.getElem?_eq_getElem h]

theorem exceptMapM_ok {α β ε : Type} (f : α → Except ε β) (g : α → β) :
    ∀ l : List α, (∀ a ∈ l, f a = Except.ok (g a)) → l.mapM f = Except.ok (l.map g) := by
  intro l
  induction l with
  | nil => intro _; rfl
  | cons a t ih =>
    intro h
    rw [List.mapM_cons, h a (List.mem_cons_self a t),
      ih fun b hb => h b (List.mem_cons_of_mem a hb)]
    rfl

theorem exceptMapM_error_iff {α β ε : Type} (f : α → Except ε β) (e : ε) :
    ∀ l : List α, (∀ a ∈ l, ∀ e', f a = Except.error e' → e' = e) →
      (l.mapM f = Except.error e ↔ ∃ a ∈ l, f a = Except.error e) := by
  intro l
  induction l with
  | nil =>
    intro _
    constructor
    · intro h; cases h
    · rintro ⟨a, ha, _⟩; cases ha
  | cons a t ih =>
    intro h
    rw [List.mapM_cons]
    cases hfa : f a with
    | error e1 =>
      have he : e1 = e := h a (List.mem_cons_self a t) e1 hfa
      subst he
      rw [exceptBind_error]
      constructor
      · intro _
        exact ⟨a, List.mem_cons_self a t, hfa⟩
      · intro _
        rfl
    | ok b =>
      rw [exceptBind_ok]
      have iht := ih fun c hc => h c (List.mem_cons_of_mem a hc)
      constructor
      · intro hl
        cases htm : t.mapM f with
        | error e2 =>
          rw [htm, exceptBind_error] at hl
          injection hl with h2
          subst h2
          rcases iht.mp htm with ⟨c, hc, hfc⟩
          exact ⟨c, List.mem_cons_of_mem a hc, hfc⟩
        | ok bs =>
          rw [htm, exceptBind_ok] at hl
          cases hl
      · rintro ⟨c, hc, hfc⟩
        rcases List.mem_cons.mp hc with rfl | hct
        · rw [hfa] at hfc
          cases hfc
        · have htm : t.mapM f = Except.error e := iht.mpr ⟨c, hct, hfc⟩
          rw [htm, exceptBind_error]

-- ### Behaviour of the per-name lookup

theorem orderScaffoldPaths_eq_mapM (referenceNames : List ScafName) (recvBams : List ScafFile) :
    orderScaffoldPaths referenceNames recvBams =
      referenceNames.mapM (lookupByEmbedded (recvBams.map embeddedScaffold) recvBams) := rfl

theorem lookupByEmbedded_none {ro : List ScafName} {recv : List ScafFile} {nm : ScafName}
    (h : pyIndex ro nm = none) :
    lookupByEmbedded ro recv nm = Except.error PipelineError.orderingMismatch := by
  simp only [lookupByEmbedded, h]

theorem lookupByEmbedded_some {ro : List ScafName} {recv : List ScafFile} {nm : ScafName}
    {i : Nat} {p : ScafFile} (h : pyIndex ro nm = some i) (h2 : recv[i]? = some p) :
    lookupByEmbedded ro recv nm = Except.ok p := by
  simp only [lookupByEmbedded, h, h2]

theorem lookupByEmbedded_error {ro : List ScafName} {recv : List ScafFile} {nm : ScafName}
    {e : PipelineError} (h : lookupByEmbedded ro recv nm = Except.error e) :
    e = PipelineError.orderingMismatch := by
  cases hp : pyIndex ro nm with
  | none =>
    rw [lookupByEmbedded_none hp] at h
    injection h with h1
    exact h1.symm
  | some i =>
    cases hg : recv[i]? with
    | none =>
      simp only [lookupByEmbedded, hp, hg] at h
      injection h with h1
      exact h1.symm
    | some p =>
      rw [lookupByEmbedded_some hp hg] at h
      cases h

/-- Looking a reference name up among the received paths fails exactly
when no received path embeds that name. -/
theorem lookupByEmbedded_error_iff (recv : List ScafFile) (nm : ScafName) :
    lookupByEmbedded (recv.map embeddedScaffold) recv nm =
        Except.error PipelineError.orderingMismatch ↔
      ∀ p ∈ recv, embeddedScaffold p ≠ nm := by
  cases hp : pyIndex (recv.map embeddedScaffold) nm with
  | none =>
    refine iff_of_true (lookupByEmbedded_none hp) ?_
    intro p hpmem heq
    exact (pyIndex_eq_none_iff.mp hp) (heq ▸ List.mem_map_of_mem embeddedScaffold hpmem)
  | some i =>
    rcases pyIndex_spec hp with ⟨hilt, hgetD⟩
    have hlen : i < recv.length := by simpa using hilt
    have hget : recv[i]? = some recv[i] := List.getElem?_eq_getElem hlen
    have hembi : embeddedScaffold recv[i] = nm := by
      rw [getD_eq_getElem_of_lt _ _ hilt] at hgetD
      simpa using hgetD
    refine iff_of_false ?_ ?_
    · rw [lookupByEmbedded_some hp hget]
      intro hcontra
      cases hcontra
    · intro hall
      exact hall recv[i] (List.getElem_mem hlen) hembi

-- ### Claim C1

/-- Claim C1 (amended): for every catalog whose scaffold names contain no
dash character, and every multiset of received per-scaffold output paths
equal (in any arrival order) to the paths the workers produce for exactly
the catalog's scaffolds, the sequence handed to `samtools cat` is the
reference-ordered sequence of those paths — independent of the arrival
permutation.  (The dash-free restriction is forced by `c1_counterexample`:
the collector recovers a scaffold's identity as the part of the path stem
after its last dash.) -/
theorem c1_reference_order_stable (names : List ScafName) (outStem : List Char)
    (dirOf : ScafName → Nat) (recv : List ScafFile)
    (hdash : ∀ n ∈ names, '-' ∉ n)
    (hperm : recv.Perm (names.map (mkScafBam outStem dirOf))) :
    orderScaffoldPaths names recv = Except.ok (names.map (mkScafBam outStem dirOf)) := by
  rw [orderScaffoldPaths_eq_mapM]
  apply exceptMapM_ok
  intro nm hnm
  have hmem : mkScafBam outStem dirOf nm ∈ recv :=
    hperm.mem_iff.mpr (List.mem_map_of_mem _ hnm)
  have hemb : embeddedScaffold (mkScafBam outStem dirOf nm) = nm :=
    embeddedScaffold_mkScafBam outStem dirOf (hdash nm hnm)
  have hro : nm ∈ recv.map embeddedScaffold :=
    hemb ▸ List.mem_map_of_mem embeddedScaffold hmem
  obtain ⟨i, hi⟩ := pyIndex_isSome_of_mem hro
  rcases pyIndex_spec hi with ⟨hilt, hgetD⟩
  have hlen : i < recv.length := by simpa using hilt
  have hget : recv[i]? = some recv[i] := List.getElem?_eq_getElem hlen
  have hembi : embeddedScaffold recv[i] = nm := by
    rw [getD_eq_getElem_of_lt _ _ hilt] at hgetD
    simpa using hgetD
  rw [lookupByEmbedded_some hi hget]
  have hmem2 : recv[i] ∈ names.map (mkScafBam outStem dirOf) :=
    hperm.mem_iff.mp (List.getElem_mem hlen)
  obtain ⟨n2, hn2, heq⟩ := List.mem_map.mp hmem2
  have hn2nm : n2 = nm := by
    rw [← heq, embeddedScaffold_mkScafBam outStem dirOf (hdash n2 hn2)] at hembi
    exact hembi
  rw [← heq, hn2nm]

/-- Witness for C1 at a concrete three-scaffold catalog: the worker
outputs arrive in the order `c, a, b`, yet the collector hands the paths
over in reference order `a, b, c`. -/
theorem c1_witness :
    orderScaffoldPaths [['a'], ['b'], ['c']]
        [ScafFile.mk 0 ['o', '-', 'c'], ScafFile.mk 0 ['o', '-', 'a'],
          ScafFile.mk 0 ['o', '-', 'b']] =
      Except.ok [ScafFile.mk 0 ['o', '-', 'a'], ScafFile.mk 0 ['o', '-', 'b'],
        ScafFile.mk 0 ['o', '-', 'c']] := by
  have h := c1_reference_order_stable [['a'], ['b'], ['c']] ['o'] (fun _ => 0)
    [ScafFile.mk 0 ['o', '-', 'c'], ScafFile.mk 0 ['o', '-', 'a'], ScafFile.mk 0 ['o', '-', 'b']]
    (by decide) (by decide)
  exact h

/-- Counterexample for C1 as stated: a catalog whose single scaffold is
named `x-y` (a dash inside the name).  The worker produces the covering
output path with stem `o-x-y`, but the collector extracts `y` as the
embedded identity, `index` raises `ValueError`, and no sequence is handed
to concatenation at all. -/
theorem c1_counterexample :
    orderScaffoldPaths [['x', '-', 'y']]
        (List.map (mkScafBam ['o'] fun _ => 0) [['x', '-', 'y']]) =
      Except.error PipelineError.orderingMismatch := rfl

-- ### Claim C10

/-- Claim C10 (amended): the reordering step fails with the
`OrderingMismatch` error exactly when some catalog name is embedded in no
received result; a received result whose embedded identity matches no
catalog entry does not by itself cause a failure (it is silently dropped,
see `c10_counterexample`). -/
theorem c10_ordering_mismatch_iff (names : List ScafName) (recv : List ScafFile) :
    orderScaffoldPaths names recv = Except.error PipelineError.orderingMismatch ↔
      ∃ nm ∈ names, ∀ p ∈ recv, embeddedScaffold p ≠ nm := by
  rw [orderScaffoldPaths_eq_mapM]
  rw [exceptMapM_error_iff _ _ names fun a _ e h => lookupByEmbedded_error h]
  exact exists_congr fun nm => and_congr_right fun _ => lookupByEmbedded_error_iff recv nm

/-- Counterexample for C10 as stated: the received set contains a result
with embedded identity `z` that matches no catalog entry, yet the
reordering step succeeds (the claim requires it to fail with
`OrderingMismatch` and not reach concatenation); the unmatched path is
silently dropped from the handed-over sequence. -/
theorem c10_counterexample :
    orderScaffoldPaths [['a']]
        [ScafFile.mk 0 ['o', '-', 'a'], ScafFile.mk 5 ['o', '-', 'z']] =
      Except.ok [ScafFile.mk 0 ['o', '-', 'a']] := rfl

-- ### The scaffold worker, `mark_duplicates_with_mate_cigar` (lines 300-400)

/-- One slot of the Python list `created_files`: a successful scaffold
contributes the `(scaffold_output_bam, scaffold_metrics_file)` pair
(line 388), a failed one contributes `None` (line 394). -/
abbrev CreatedSlot := Option (ScafFile × ScafFile)

/-- The channel protocol of a worker: each element is one call on its
`parent_connection`, either `send` (line 397 or 399, carrying `None` or
the `created_files` list) or `close` (line 400). -/
inductive WorkerEvent where
  | send (msg : Option (List CreatedSlot))
  | close
deriving DecidableEq, Repr

/-- Python `None in lst` (lines 169 and 396). -/
def pyContainsNone (l : List CreatedSlot) : Bool :=
  l.any fun e => e.isNone

/-- The worker's per-scaffold loop (lines 306-395): walk the assigned
scaffolds in list order; a successful external call appends the
`(bam, metrics)` pair, a failed one appends `None` and breaks.  The
external duplicate-marking tool is abstracted by `ok` (exit status zero or
not, per scaffold).  Returns `created_files` together with the list of
scaffolds the external tool was actually invoked for. -/
def runScaffolds (ok : ScafName → Bool) (outStem metStem : List Char)
    (dirOf : ScafName → Nat) : List ScafName → List CreatedSlot × List ScafName
  | [] => ([], [])
  | s :: rest =>
    if ok s then
      let r := runScaffolds ok outStem metStem dirOf rest
      (some (mkScafBam outStem dirOf s, mkScafMetrics metStem dirOf s) :: r.1, s :: r.2)
    else ([none], [s])

/-- Lines 396-400: after the loop the worker sends exactly one message —
`None` when `created_files` contains a `None`, the list itself otherwise —
and then closes its channel. -/
def workerReport (created : List CreatedSlot) : List WorkerEvent :=
  (if pyContainsNone created then [WorkerEvent.send none]
    else [WorkerEvent.send (some created)]) ++ [WorkerEvent.close]

/-- The whole worker body: channel events produced, paired with the
scaffolds it attempted. -/
def mark_duplicates_with_mate_cigar (ok : ScafName → Bool) (outStem metStem : List Char)
    (dirOf : ScafName → Nat) (scaffolds : List ScafName) : List WorkerEvent × List ScafName :=
  let r := runScaffolds ok outStem metStem dirOf scaffolds
  (workerReport r.1, r.2)

theorem runScaffolds_all_ok (ok : ScafName → Bool) (outStem metStem : List Char)
    (dirOf : ScafName → Nat) :
    ∀ lst : List ScafName, lst.all ok = true →
      runScaffolds ok outStem metStem dirOf lst =
        (lst.map fun s => some (mkScafBam outStem dirOf s, mkScafMetrics metStem dirOf s), lst) := by
  intro lst
  induction lst with
  | nil => intro _; rfl
  | cons s rest ih =>
    intro h
    rcases List.all_cons .. ▸ h |> Bool.and_eq_true_iff.mp with ⟨hs, hrest⟩
    simp only [runScaffolds, hs, if_true, ih hrest, List.map_cons]

theorem runScaffolds_not_all_ok (ok : ScafName → Bool) (outStem metStem : List Char)
    (dirOf : ScafName → Nat) :
    ∀ lst : List ScafName, lst.all ok = false →
      runScaffolds ok outStem metStem dirOf lst =
        ((lst.takeWhile ok).map
            (fun s => some (mkScafBam outStem dirOf s, mkScafMetrics metStem dirOf s)) ++ [none],
          lst.takeWhile ok ++ (lst.drop (lst.takeWhile ok).length).take 1) := by
  intro lst
  induction lst with
  | nil => intro h; cases h
  | cons s rest ih =>
    intro h
    cases hs : ok s with
    | false =>
      simp only [runScaffolds, hs, if_false, List.takeWhile_cons, Bool.false_eq_true,
        List.map_nil, List.nil_append, List.length_nil, List.drop_zero, List.take_succ_cons,
        List.take_zero]
    | true =>
      have hrest : rest.all ok = false := by
        rw [List.all_cons, hs] at h
        simpa using h
      simp only [runScaffolds, hs, if_true, ih hrest, List.takeWhile_cons, List.map_cons,
        List.cons_append, List.length_cons, List.drop_succ_cons]

theorem pyContainsNone_map_some {β : Type} (l : List β) (f : β → ScafFile × ScafFile) :
    pyContainsNone (l.map fun s => some (f s)) = false := by
  simp [pyContainsNone, List.any_map, Function.comp_def]

theorem pyContainsNone_append_none (l : List CreatedSlot) :
    pyContainsNone (l ++ [none]) = true := by
  simp [pyContainsNone]

-- ### Claim C7

/-- Claim C7: a worker processes its assigned scaffolds in list order and
stops at the first failing scaffold, abandoning the remaining ones (the
attempted list is the all-successful prefix plus, if any, the first
failing scaffold); it then performs exactly one `send` on its channel —
`None` with no per-scaffold data if any scaffold failed, otherwise the
ordered list of per-scaffold results, which is empty for an empty
assignment — followed by exactly one `close`. -/
theorem c7_worker_fail_fast_protocol (ok : ScafName → Bool) (outStem metStem : List Char)
    (dirOf : ScafName → Nat) (lst : List ScafName) :
    (mark_duplicates_with_mate_cigar ok outStem metStem dirOf lst).1 =
        [WorkerEvent.send
          (if lst.all ok then
            some (lst.map fun s => some (mkScafBam outStem dirOf s, mkScafMetrics metStem dirOf s))
          else none),
          WorkerEvent.close] ∧
      (mark_duplicates_with_mate_cigar ok outStem metStem dirOf lst).2 =
        lst.takeWhile ok ++ (lst.drop (lst.takeWhile ok).length).take 1 := by
  cases hall : lst.all ok with
  | true =>
    have hrun := runScaffolds_all_ok ok outStem metStem dirOf lst hall
    have htake : lst.takeWhile ok = lst := List.takeWhile_eq_self_iff.mpr (by
      intro a ha
      exact (List.all_eq_true.mp hall) a ha)
    constructor
    · simp only [mark_duplicates_with_mate_cigar, hrun, workerReport,
        pyContainsNone_map_some, if_false, if_true, Bool.false_eq_true]
      rfl
    · simp only [mark_duplicates_with_mate_cigar, hrun, htake, List.drop_length,
        List.take_nil, List.append_nil]
  | false =>
    have hrun := runScaffolds_not_all_ok ok outStem metStem dirOf lst hall
    constructor
    · simp only [mark_duplicates_with_mate_cigar, hrun, workerReport,
        pyContainsNone_append_none, if_true, if_false, Bool.false_eq_true]
      rfl
    · simp only [mark_duplicates_with_mate_cigar, hrun]

-- ### The result collector (lines 164-172)

/-- One iteration of the receive loop at lines 165-166:
`received_scaffold_files.extend(r_c.recv())`.  A worker that failed sent
the bare value `None` (line 397), and `list.extend(None)` raises
`TypeError: NoneType is not iterable` — modelled as the `typeError`
outcome. -/
def extendReceived (acc : List CreatedSlot) (msg : Option (List CreatedSlot)) :
    Except PipelineError (List CreatedSlot) :=
  match msg with
  | none => Except.error PipelineError.typeError
  | some files => Except.ok (acc ++ files)

/-- Line 170: `sum([rbp is None for rbp in received_scaffold_files])`. -/
def countNone (l : List CreatedSlot) : Nat :=
  l.countP fun e => e.isNone

/-- Lines 164-172: receive from every worker channel in turn, extending
one flat list; afterwards, if the flat list contains `None`, report the
count and terminate (`exit(1)`), modelled as `partitioningFailed`;
otherwise return the flat list of received pairs. -/
def collectOutcomes (msgs : List (Option (List CreatedSlot))) :
    Except PipelineError (List CreatedSlot) :=
  (msgs.foldlM extendReceived []) >>= fun received =>
    if pyContainsNone received then
      Except.error (PipelineError.partitioningFailed (countNone received))
    else Except.ok received

theorem foldlM_extendReceived_error :
    ∀ (msgs : List (Option (List CreatedSlot))) (acc : List CreatedSlot), none ∈ msgs →
      msgs.foldlM extendReceived acc = Except.error PipelineError.typeError := by
  intro msgs
  induction msgs with
  | nil =>
    intro acc h
    cases h
  | cons m rest ih =>
    intro acc h
    rw [List.foldlM_cons]
    cases m with
    | none => rfl
    | some files =>
      have hrest : none ∈ rest := by
        rcases List.mem_cons.mp h with h1 | h1
        · cases h1
        · exact h1
      exact ih (acc ++ files) hrest

/-- The receive loop crashes with `TypeError` as soon as any worker's
message is the failure marker `None`; the count-reporting branch at
lines 169-172 is consequently unreachable for failure markers. -/
theorem collectOutcomes_typeError_of_failure {msgs : List (Option (List CreatedSlot))}
    (h : none ∈ msgs) : collectOutcomes msgs = Except.error PipelineError.typeError := by
  unfold collectOutcomes
  rw [foldlM_extendReceived_error msgs [] h]
  rfl

-- ### Claim C5

/-- Claim C5 (code bug): with three workers of which the last reports the
failure marker, the collector does not produce the intended
`PartitioningFailed` report with a failure count — it crashes with the
`TypeError` raised by `received_scaffold_files.extend(None)`, so the
count-printing branch of lines 169-172 never runs.  (The run still
terminates with a non-zero status and produces no output, but not through
the designed path.) -/
theorem c5_failure_marker_crashes :
    collectOutcomes [some [], some [], none] = Except.error PipelineError.typeError ∧
      ∀ k, Except.error PipelineError.typeError ≠
        (Except.error (PipelineError.partitioningFailed k) : Except PipelineError (List CreatedSlot)) := by
  constructor
  · rfl
  · intro k hcontra
    injection hcontra with h1
    cases h1

-- ### The partition planner (lines 133-148)

/-- Python `min(lst)` for a non-empty list of numbers (0 on the empty
list, where CPython would raise). -/
def listMin : List Nat → Nat
  | [] => 0
  | x :: rest => rest.foldl min x

/-- Index of the first element satisfying `p` (length if none); with
`p := (· == min)` this is Python `lst.index(min(lst))` at line 146. -/
def idxOfFirst (p : Nat → Bool) : List Nat → Nat
  | [] => 0
  | x :: rest => if p x then 0 else idxOfFirst p rest + 1

/-- Lines 138-139: `sorted(zip(names, lengths), key=lambda t: t[1],
reverse=True)`.  CPython's `sorted` is specified to be stable; a stable
sort with respect to a total preorder is extensionally unique, so it is
embedded as insertion sort with the non-strict key comparison
`b.2 ≤ a.2` (which is stable: an element inserted earlier stays in front
of later equal-length ones). -/
def descendingLengthTuples (catalog : List (ScafName × Nat)) : List (ScafName × Nat) :=
  List.insertionSort (fun a b => b.2 ≤ a.2) catalog

/-- One iteration of the loop at lines 140-148, acting on the pair
`(worker_scaffold_lists, worker_scaffolds_cumulative_sums)`; `scaff` is
`(scaff_idx, (scaffold_name, scaffold_length))` from the enumerated walk.
If the cyclically preferred worker `scaff_idx % processes` can take the
scaffold while staying strictly below the target, it does; otherwise the
worker with the smallest cumulative sum (first such index) takes it. -/
def assignStep (optimalSplitLength processes : Nat)
    (st : List (List ScafName) × List Nat) (scaff : Nat × (ScafName × Nat)) :
    List (List ScafName) × List Nat :=
  let w := scaff.1 % processes
  if st.2.getD w 0 + scaff.2.2 < optimalSplitLength then
    (st.1.set w (st.1.getD w [] ++ [scaff.2.1]), st.2.set w (st.2.getD w 0 + scaff.2.2))
  else
    let j := idxOfFirst (fun v => v == listMin st.2) st.2
    (st.1.set j (st.1.getD j [] ++ [scaff.2.1]), st.2.set j (st.2.getD j 0 + scaff.2.2))

/-- The whole loop at lines 140-148. -/
def assignAll (optimalSplitLength processes : Nat)
    (chunks : List (Nat × (ScafName × Nat))) (st : List (List ScafName) × List Nat) :
    List (List ScafName) × List Nat :=
  chunks.foldl (assignStep optimalSplitLength processes) st

/-- Lines 133-148 as one function of the catalog (the `(name, length)`
pairs zipped at line 138) and the worker count: `none` is the
`ZeroDivisionError` of `total_ref_length // processes` when
`processes = 0`; otherwise the plan `(worker_scaffold_lists,
worker_scaffolds_cumulative_sums)`. -/
def partitionPlan (catalog : List (ScafName × Nat)) (processes : Nat) :
    Option (List (List ScafName) × List Nat) :=
  if processes = 0 then none
  else
    let totalRefLength := (catalog.map Prod.snd).sum
    let optimalSplitLength := totalRefLength / processes
    some (assignAll optimalSplitLength processes (descendingLengthTuples catalog).enum
      (List.replicate processes [], List.replicate processes 0))

/-- `max(scaffold length)` over a catalog (0 when empty). -/
def maxScaffoldLength (catalog : List (ScafName × Nat)) : Nat :=
  (catalog.map Prod.snd).foldr max 0

-- ### The reference algorithm of the specification (claim C3), written
-- from the claim's own words

/-- The worker that currently has the smallest running total, ties broken
by the lowest worker index. -/
def minTotalWorker : List Nat → Nat
  | [] => 0
  | [_] => 0
  | x :: y :: rest => if x ≤ listMin (y :: rest) then 0 else minTotalWorker (y :: rest) + 1

/-- Length descending, ties broken by original catalog position. -/
def byLengthThenOrder (a b : Nat × (ScafName × Nat)) : Prop :=
  b.2.2 < a.2.2 ∨ (a.2.2 = b.2.2 ∧ a.1 ≤ b.1)

instance : DecidableRel byLengthThenOrder := fun a b =>
  inferInstanceAs (Decidable (b.2.2 < a.2.2 ∨ (a.2.2 = b.2.2 ∧ a.1 ≤ b.1)))

/-- Scaffolds sorted by length descending with ties in original catalog
order, obtained by sorting the position-annotated catalog. -/
def sortByLengthThenOrder (catalog : List (ScafName × Nat)) : List (ScafName × Nat) :=
  (List.insertionSort byLengthThenOrder catalog.enum).map Prod.snd

/-- The reference walk: for the `i`-th scaffold of the sorted walk, try
worker `i % N` if its running total plus the scaffold's length stays
strictly below the target, else give the scaffold to the worker with the
smallest running total (lowest index on ties). -/
def refAssignWalk (target N : Nat) :
    Nat → List (ScafName × Nat) → List (List ScafName) → List Nat →
      List (List ScafName) × List Nat
  | _, [], lists, totals => (lists, totals)
  | i, s :: rest, lists, totals =>
    let w := if totals.getD (i % N) 0 + s.2 < target then i % N else minTotalWorker totals
    refAssignWalk target N (i + 1) rest
      (lists.set w (lists.getD w [] ++ [s.1])) (totals.set w (totals.getD w 0 + s.2))

/-- The reference algorithm of the claim: target is the total base-pair
count integer-divided by N; walk the sorted scaffolds from index 0. -/
def referencePlan (catalog : List (ScafName × Nat)) (N : Nat) :
    List (List ScafName) × List Nat :=
  refAssignWalk ((catalog.map Prod.snd).sum / N) N 0 (sortByLengthThenOrder catalog)
    (List.replicate N []) (List.replicate N 0)

-- ### Facts about `listMin`, `idxOfFirst` and `minTotalWorker`

theorem foldl_min_min (r : List Nat) :
    ∀ x y : Nat, r.foldl min (min x y) = min x (r.foldl min y) := by
  induction r with
  | nil => intro x y; rfl
  | cons z r ih =>
    intro x y
    show r.foldl min (min (min x y) z) = min x (r.foldl min (min y z))
    have hassoc : min (min x y) z = min x (min y z) := by omega
    rw [hassoc, ih]

theorem listMin_cons_cons (x y : Nat) (rest : List Nat) :
    listMin (x :: y :: rest) = min x (listMin (y :: rest)) := by
  show rest.foldl min (min x y) = min x (rest.foldl min y)
  exact foldl_min_min rest x y

theorem listMin_le {l : List Nat} {x : Nat} (h : x ∈ l) : listMin l ≤ x := by
  induction l with
  | nil => cases h
  | cons y rest ih =>
    cases rest with
    | nil =>
      rcases List.mem_cons.mp h with h1 | h1
      · subst h1; exact Nat.le_refl _
      · cases h1
    | cons z r =>
      rw [listMin_cons_cons]
      rcases List.mem_cons.mp h with h1 | h1
      · subst h1; omega
      · have := ih h1
        omega

theorem listMin_mem {l : List Nat} (h : l ≠ []) : listMin l ∈ l := by
  induction l with
  | nil => exact absurd rfl h
  | cons y rest ih =>
    cases rest with
    | nil => exact List.mem_cons_self _ _
    | cons z r =>
      rw [listMin_cons_cons]
      rcases Nat.le_total y (listMin (z :: r)) with hle | hle
      · have hmin : min y (listMin (z :: r)) = y := by omega
        rw [hmin]
        exact List.mem_cons_self _ _
      · have hmin : min y (listMin (z :: r)) = listMin (z :: r) := by omega
        rw [hmin]
        exact List.mem_cons_of_mem _ (ih (by simp))

theorem length_mul_listMin_le_sum (l : List Nat) : l.length * listMin l ≤ l.sum := by
  induction l with
  | nil => exact Nat.le_refl 0
  | cons y rest ih =>
    cases rest with
    | nil => simpa [listMin] using Nat.le_refl y
    | cons z r =>
      rw [listMin_cons_cons, List.length_cons, List.sum_cons, Nat.succ_mul]
      have h1 : (z :: r).length * min y (listMin (z :: r)) ≤ (z :: r).sum := by
        have hmono : (z :: r).length * min y (listMin (z :: r)) ≤
            (z :: r).length * listMin (z :: r) :=
          Nat.mul_le_mul_left _ (by omega)
        exact Nat.le_trans hmono ih
      have h2 : min y (listMin (z :: r)) ≤ y := by omega
      omega

theorem idxOfFirst_lt_length {p : Nat → Bool} {l : List Nat}
    (h : ∃ x ∈ l, p x = true) : idxOfFirst p l < l.length := by
  induction l with
  | nil =>
    rcases h with ⟨x, hx, _⟩
    cases hx
  | cons y rest ih =>
    cases hy : p y with
    | true => simp [idxOfFirst, hy]
    | false =>
      have hrest : ∃ x ∈ rest, p x = true := by
        rcases h with ⟨x, hx, hpx⟩
        rcases List.mem_cons.mp hx with h1 | h1
        · subst h1; rw [hy] at hpx; cases hpx
        · exact ⟨x, h1, hpx⟩
      simpa [idxOfFirst, hy] using Nat.succ_lt_succ (ih hrest)

theorem getD_idxOfFirst_eq {l : List Nat} {m : Nat} (h : m ∈ l) :
    l.getD (idxOfFirst (fun v => v == m) l) 0 = m := by
  induction l with
  | nil => cases h
  | cons y rest ih =>
    cases hy : (y == m) with
    | true =>
      simp only [idxOfFirst, hy, if_true, List.getD_cons_zero]
      simpa using hy
    | false =>
      have hne : y ≠ m := by
        intro hc
        subst hc
        simp at hy
      have hm : m ∈ rest := by
        rcases List.mem_cons.mp h with h1 | h1
        · exact absurd h1.symm hne
        · exact h1
      simpa [idxOfFirst, hy, List.getD_cons_succ] using ih hm

theorem minTotalWorker_eq_idxOfFirst :
    ∀ l : List Nat, minTotalWorker l = idxOfFirst (fun v => v == listMin l) l := by
  intro l
  induction l with
  | nil => rfl
  | cons x rest ih =>
    cases rest with
    | nil => simp [minTotalWorker, idxOfFirst, listMin]
    | cons y r =>
      rw [listMin_cons_cons]
      by_cases hle : x ≤ listMin (y :: r)
      · have hmin : min x (listMin (y :: r)) = x := by omega
        rw [hmin]
        simp [minTotalWorker, idxOfFirst, hle]
      · have hmin : min x (listMin (y :: r)) = listMin (y :: r) := by omega
        rw [hmin]
        have hne : (x == listMin (y :: r)) = false := by
          have : x ≠ listMin (y :: r) := by omega
          simpa using this
        simp only [minTotalWorker, if_neg hle, idxOfFirst, hne, ih]
        rfl

-- ### One step of the assignment loop always appends to exactly one list

theorem assignStep_spec (optimalSplitLength processes : Nat)
    (lists : List (List ScafName)) (totals : List Nat) (scaff : Nat × (ScafName × Nat))
    (hN : 1 ≤ processes) (hlen : totals.length = processes) :
    ∃ w, w < processes ∧
      assignStep optimalSplitLength processes (lists, totals) scaff =
        (lists.set w (lists.getD w [] ++ [scaff.2.1]),
          totals.set w (totals.getD w 0 + scaff.2.2)) ∧
      (totals.getD w 0 + scaff.2.2 < optimalSplitLength ∨ totals.getD w 0 = listMin totals) := by
  by_cases hcond : totals.getD (scaff.1 % processes) 0 + scaff.2.2 < optimalSplitLength
  · refine ⟨scaff.1 % processes, Nat.mod_lt _ hN, ?_, Or.inl hcond⟩
    simp only [assignStep, hcond, if_true]
  · have hne : totals ≠ [] := by
      intro hc
      rw [hc] at hlen
      simp at hlen
      omega
    have hmem : listMin totals ∈ totals := listMin_mem hne
    have hex : ∃ x ∈ totals, (x == listMin totals) = true :=
      ⟨listMin totals, hmem, by simp⟩
    have hlt : idxOfFirst (fun v => v == listMin totals) totals < processes :=
      hlen ▸ idxOfFirst_lt_length hex
    refine ⟨idxOfFirst (fun v => v == listMin totals) totals, hlt, ?_,
      Or.inr (getD_idxOfFirst_eq hmem)⟩
    simp only [assignStep, hcond, if_false]

-- ### Claim C2 machinery: the flattened plan is a permutation of the input

theorem flatten_set_append {α : Type} :
    ∀ (l : List (List α)) (w : Nat) (x : α), w < l.length →
      ((l.set w (l.getD w [] ++ [x])).flatten).Perm (x :: l.flatten) := by
  intro l
  induction l with
  | nil =>
    intro w x h
    cases h
  | cons a t ih =>
    intro w x h
    cases w with
    | zero =>
      simp only [List.set_cons_zero, List.getD_cons_zero, List.flatten_cons, List.append_assoc]
      exact List.perm_middle
    | succ w =>
      simp only [List.set_cons_succ, List.getD_cons_succ, List.flatten_cons]
      have h1 : ((t.set w (t.getD w [] ++ [x])).flatten).Perm (x :: t.flatten) :=
        ih w x (Nat.lt_of_succ_lt_succ h)
      exact ((h1.append_left a).trans List.perm_middle)

theorem assignAll_cover (optimalSplitLength processes : Nat) (hN : 1 ≤ processes) :
    ∀ (chunks : List (Nat × (ScafName × Nat)))
      (lists : List (List ScafName)) (totals : List Nat),
      lists.length = processes → totals.length = processes →
      ((assignAll optimalSplitLength processes chunks (lists, totals)).1.length = processes ∧
        (assignAll optimalSplitLength processes chunks (lists, totals)).2.length = processes ∧
        ((assignAll optimalSplitLength processes chunks (lists, totals)).1.flatten).Perm
          ((chunks.map fun c => c.2.1) ++ lists.flatten)) := by
  intro chunks
  induction chunks with
  | nil =>
    intro lists totals h1 h2
    exact ⟨h1, h2, List.Perm.refl _⟩
  | cons c rest ih =>
    intro lists totals h1 h2
    obtain ⟨w, hw, heq, _⟩ :=
      assignStep_spec optimalSplitLength processes lists totals c hN h2
    have hstep : assignAll optimalSplitLength processes (c :: rest) (lists, totals) =
        assignAll optimalSplitLength processes rest
          (lists.set w (lists.getD w [] ++ [c.2.1]),
            totals.set w (totals.getD w 0 + c.2.2)) := by
      simp only [assignAll, List.foldl_cons, heq]
    rw [hstep]
    have h1s : (lists.set w (lists.getD w [] ++ [c.2.1])).length = processes := by
      simpa using h1
    have h2s : (totals.set w (totals.getD w 0 + c.2.2)).length = processes := by
      simpa using h2
    obtain ⟨ih1, ih2, ihperm⟩ := ih _ _ h1s h2s
    refine ⟨ih1, ih2, ?_⟩
    have hset : ((lists.set w (lists.getD w [] ++ [c.2.1])).flatten).Perm
        (c.2.1 :: lists.flatten) :=
      flatten_set_append lists w c.2.1 (h1 ▸ hw)
    have ha := hset.append_left (rest.map fun d => d.2.1)
    have hb : ((rest.map fun d => d.2.1) ++ c.2.1 :: lists.flatten).Perm
        (c.2.1 :: ((rest.map fun d => d.2.1) ++ lists.flatten)) := List.perm_middle
    have hcc := (ihperm.trans ha).trans hb
    simpa using hcc

theorem flatten_replicate_nil {α : Type} (n : Nat) :
    (List.replicate n ([] : List α)).flatten = [] := by
  induction n with
  | zero => rfl
  | succ n ih => simp [List.replicate_succ, ih]

theorem enum_map_name (l : List (ScafName × Nat)) :
    (l.enum.map fun c => c.2.1) = l.map Prod.fst := by
  have h1 : l.enum.map Prod.snd = l := List.enumFrom_map_snd 0 l
  have h2 : (l.enum.map Prod.snd).map Prod.fst = l.enum.map fun c => c.2.1 :=
    List.map_map Prod.fst Prod.snd l.enum
  rw [← h2, h1]

theorem enum_map_length (l : List (ScafName × Nat)) :
    (l.enum.map fun c => c.2.2) = l.map Prod.snd := by
  have h1 : l.enum.map Prod.snd = l := List.enumFrom_map_snd 0 l
  have h2 : (l.enum.map Prod.snd).map Prod.snd = l.enum.map fun c => c.2.2 :=
    List.map_map Prod.snd Prod.snd l.enum
  rw [← h2, h1]

-- ### Claim C2

/-- Claim C2: for every catalog (the name-to-length table has distinct
names) and worker count N ≥ 1, the produced plan has exactly N worker
lists, their concatenation is a permutation of the catalog's scaffold
set (multiset union equals the full set), and it has no duplicates — so
every scaffold lands in exactly one worker's list, never twice. -/
theorem c2_partition_exact_cover (catalog : List (ScafName × Nat)) (N : Nat)
    (lists : List (List ScafName)) (sums : List Nat)
    (hN : 1 ≤ N) (hnodup : (catalog.map Prod.fst).Nodup)
    (hplan : partitionPlan catalog N = some (lists, sums)) :
    lists.length = N ∧ lists.flatten.Perm (catalog.map Prod.fst) ∧ lists.flatten.Nodup := by
  have hne0 : ¬N = 0 := by omega
  rw [partitionPlan, if_neg hne0] at hplan
  injection hplan with hplan
  obtain ⟨hlen, _, hperm⟩ :=
    assignAll_cover ((catalog.map Prod.snd).sum / N) N hN
      (descendingLengthTuples catalog).enum
      (List.replicate N []) (List.replicate N 0) (by simp) (by simp)
  rw [hplan] at hlen hperm
  have hnames : ((descendingLengthTuples catalog).enum.map fun c => c.2.1).Perm
      (catalog.map Prod.fst) := by
    rw [enum_map_name]
    exact (List.perm_insertionSort _ catalog).map Prod.fst
  have hflat : lists.flatten.Perm (catalog.map Prod.fst) := by
    have h1 := hperm
    rw [flatten_replicate_nil, List.append_nil] at h1
    exact h1.trans hnames
  exact ⟨hlen, hflat, (hflat.symm).nodup hnodup⟩

/-- The catalog of the specification's worked example: four scaffolds of
lengths 100, 90, 60, 50. -/
def exampleCatalog : List (ScafName × Nat) :=
  [(['a'], 100), (['b'], 90), (['c'], 60), (['d'], 50)]

/-- Witness for C2 at the worked example with N = 2: the plan is
`[[a, d], [b, c]]`, whose concatenation is a duplicate-free permutation
of the four catalog names. -/
theorem c2_witness :
    ([[['a'], ['d']], [['b'], ['c']]] : List (List ScafName)).length = 2 ∧
      ([[['a'], ['d']], [['b'], ['c']]] : List (List ScafName)).flatten.Perm
        (exampleCatalog.map Prod.fst) ∧
      ([[['a'], ['d']], [['b'], ['c']]] : List (List ScafName)).flatten.Nodup :=
  c2_partition_exact_cover exampleCatalog 2 [[['a'], ['d']], [['b'], ['c']]] [150, 150]
    (by decide) (by decide) rfl

-- ### Claim C4 machinery: every cumulative sum stays within one maximal
-- scaffold length of the target

theorem sum_set_getD (l : List Nat) :
    ∀ (w v : Nat), w < l.length → (l.set w v).sum + l.getD w 0 = l.sum + v := by
  induction l with
  | nil =>
    intro w v h
    cases h
  | cons a t ih =>
    intro w v h
    cases w with
    | zero =>
      simp only [List.set_cons_zero, List.getD_cons_zero, List.sum_cons]
      omega
    | succ w =>
      simp only [List.set_cons_succ, List.getD_cons_succ, List.sum_cons]
      have := ih w v (Nat.lt_of_succ_lt_succ h)
      omega

theorem snd_mem_of_mem_enumFrom {α : Type} :
    ∀ (l : List α) (n : Nat) (c : Nat × α), c ∈ l.enumFrom n → c.2 ∈ l := by
  intro l
  induction l with
  | nil =>
    intro n c h
    cases h
  | cons a t ih =>
    intro n c h
    rw [List.enumFrom_cons] at h
    rcases List.mem_cons.mp h with h1 | h1
    · subst h1
      exact List.mem_cons_self a t
    · exact List.mem_cons_of_mem _ (ih (n + 1) c h1)

theorem le_foldr_max {x : Nat} : ∀ {ns : List Nat}, x ∈ ns → x ≤ ns.foldr max 0 := by
  intro ns
  induction ns with
  | nil => intro h; cases h
  | cons y rest ih =>
    intro h
    show x ≤ max y (rest.foldr max 0)
    rcases List.mem_cons.mp h with h1 | h1
    · subst h1; omega
    · have := ih h1
      omega

theorem assignAll_sums_bounded (total N maxLen : Nat) (hN : 1 ≤ N) :
    ∀ (chunks : List (Nat × (ScafName × Nat)))
      (lists : List (List ScafName)) (totals : List Nat),
      totals.length = N →
      (∀ c ∈ chunks, c.2.2 ≤ maxLen) →
      totals.sum + (chunks.map fun c => c.2.2).sum ≤ total →
      (∀ x ∈ totals, x ≤ total / N + maxLen) →
      ∀ x ∈ (assignAll (total / N) N chunks (lists, totals)).2, x ≤ total / N + maxLen := by
  intro chunks
  induction chunks with
  | nil =>
    intro lists totals _ _ _ hbound x hx
    exact hbound x hx
  | cons c rest ih =>
    intro lists totals hlen hc hsum hbound x hx
    obtain ⟨w, hw, heq, hbranch⟩ := assignStep_spec (total / N) N lists totals c hN hlen
    have hstep : assignAll (total / N) N (c :: rest) (lists, totals) =
        assignAll (total / N) N rest
          (lists.set w (lists.getD w [] ++ [c.2.1]),
            totals.set w (totals.getD w 0 + c.2.2)) := by
      simp only [assignAll, List.foldl_cons, heq]
    rw [hstep] at hx
    have hwlen : w < totals.length := hlen ▸ hw
    have hsumset := sum_set_getD totals w (totals.getD w 0 + c.2.2) hwlen
    have hmapsum : (totals.sum + c.2.2) + (rest.map fun d => d.2.2).sum ≤ total := by
      simp only [List.map_cons, List.sum_cons] at hsum
      omega
    have hcmax : c.2.2 ≤ maxLen := hc c (List.mem_cons_self c rest)
    have hnewbound : ∀ y ∈ totals.set w (totals.getD w 0 + c.2.2),
        y ≤ total / N + maxLen := by
      intro y hy
      rcases List.mem_or_eq_of_mem_set hy with hmem | hval
      · exact hbound y hmem
      · rcases hbranch with hlt | hminv
        · omega
        · have hminsum : totals.length * listMin totals ≤ totals.sum :=
            length_mul_listMin_le_sum totals
          rw [hlen] at hminsum
          have hNmin : listMin totals * N ≤ total := by
            rw [Nat.mul_comm]
            omega
          have hmindiv : listMin totals ≤ total / N :=
            (Nat.le_div_iff_mul_le (by omega)).mpr hNmin
          omega
    exact ih _ _ (by simpa using hlen)
      (fun d hd => hc d (List.mem_cons_of_mem c hd))
      (by omega) hnewbound x hx

-- ### Claim C4

/-- Claim C4: for every catalog and N ≥ 1, every worker's final
cumulative base-pair total in the produced plan is at most
`target + max(scaffold length)`, where `target` is the total base-pair
count integer-divided by N. -/
theorem c4_bounded_imbalance (catalog : List (ScafName × Nat)) (N : Nat)
    (lists : List (List ScafName)) (sums : List Nat) (x : Nat)
    (hN : 1 ≤ N) (hplan : partitionPlan catalog N = some (lists, sums)) (hx : x ∈ sums) :
    x ≤ (catalog.map Prod.snd).sum / N + maxScaffoldLength catalog := by
  have hne0 : ¬N = 0 := by omega
  rw [partitionPlan, if_neg hne0] at hplan
  injection hplan with hplan
  have hmain := assignAll_sums_bounded ((catalog.map Prod.snd).sum) N
    (maxScaffoldLength catalog) hN (descendingLengthTuples catalog).enum
    (List.replicate N []) (List.replicate N 0) (by simp)
    (fun c hcmem => by
      have h1 : c.2 ∈ descendingLengthTuples catalog :=
        snd_mem_of_mem_enumFrom _ 0 c hcmem
      have h2 : c.2 ∈ catalog := (List.perm_insertionSort _ catalog).mem_iff.mp h1
      exact le_foldr_max (List.mem_map_of_mem Prod.snd h2))
    (by
      have hmap : ((descendingLengthTuples catalog).enum.map fun c => c.2.2).sum =
          (catalog.map Prod.snd).sum := by
        rw [enum_map_length]
        exact ((List.perm_insertionSort _ catalog).map Prod.snd).sum_eq
      rw [hmap]
      simp)
    (fun y hy => by
      have hy0 : y = 0 := List.eq_of_mem_replicate hy
      rw [hy0]
      exact Nat.zero_le _)
  rw [hplan] at hmain
  exact hmain x hx

/-- Witness for C4 at the worked example with N = 2: worker 0's final
total 150 is within `target + max length = 150 + 100 = 250`. -/
theorem c4_witness :
    (150 : Nat) ≤ (exampleCatalog.map Prod.snd).sum / 2 + maxScaffoldLength exampleCatalog :=
  c4_bounded_imbalance exampleCatalog 2 [[['a'], ['d']], [['b'], ['c']]] [150, 150] 150
    (by decide) rfl (by decide)

-- ### Claim C3 machinery: the two sorts and the two walks coincide

theorem le_fst_of_mem_enumFrom {α : Type} :
    ∀ (l : List α) (n : Nat) (e : Nat × α), e ∈ l.enumFrom n → n ≤ e.1 := by
  intro l
  induction l with
  | nil =>
    intro n e h
    cases h
  | cons a t ih =>
    intro n e h
    rw [List.enumFrom_cons] at h
    rcases List.mem_cons.mp h with h1 | h1
    · subst h1
      exact Nat.le_refl n
    · exact Nat.le_of_succ_le (ih (n + 1) e h1)

theorem map_snd_orderedInsert (k : Nat) (a : ScafName × Nat) :
    ∀ (S : List (Nat × (ScafName × Nat))), (∀ e ∈ S, k < e.1) →
      (List.orderedInsert byLengthThenOrder (k, a) S).map Prod.snd =
        List.orderedInsert (fun x y => y.2 ≤ x.2) a (S.map Prod.snd) := by
  intro S
  induction S with
  | nil => intro _; rfl
  | cons jb S' ih =>
    intro hk
    have hkj : k < jb.1 := hk jb (List.mem_cons_self jb S')
    have hiff : byLengthThenOrder (k, a) jb ↔ jb.2.2 ≤ a.2 := by
      unfold byLengthThenOrder
      constructor
      · rintro (h | ⟨h1, _⟩)
        · exact Nat.le_of_lt h
        · exact Nat.le_of_eq h1.symm
      · intro h
        rcases Nat.lt_or_ge jb.2.2 a.2 with h1 | h1
        · exact Or.inl h1
        · exact Or.inr ⟨Nat.le_antisymm h1 h, Nat.le_of_lt hkj⟩
    by_cases hle : byLengthThenOrder (k, a) jb
    · rw [List.orderedInsert_of_le _ _ hle, List.map_cons, List.map_cons,
        List.orderedInsert, if_pos (hiff.mp hle)]
    · have hle2 : ¬jb.2.2 ≤ a.2 := fun hc => hle (hiff.mpr hc)
      show (List.orderedInsert byLengthThenOrder (k, a) (jb :: S')).map Prod.snd =
        List.orderedInsert (fun x y => y.2 ≤ x.2) a (jb.2 :: S'.map Prod.snd)
      rw [List.orderedInsert, if_neg hle, List.orderedInsert, if_neg hle2, List.map_cons,
        ih fun e he => hk e (List.mem_cons_of_mem jb he)]

theorem map_snd_insertionSort_enumFrom :
    ∀ (l : List (ScafName × Nat)) (k : Nat),
      (List.insertionSort byLengthThenOrder (l.enumFrom k)).map Prod.snd =
        List.insertionSort (fun x y => y.2 ≤ x.2) l := by
  intro l
  induction l with
  | nil => intro k; rfl
  | cons a t ih =>
    intro k
    rw [List.enumFrom_cons]
    show (List.orderedInsert byLengthThenOrder (k, a)
        (List.insertionSort byLengthThenOrder (t.enumFrom (k + 1)))).map Prod.snd =
      List.orderedInsert (fun x y => y.2 ≤ x.2) a
        (List.insertionSort (fun x y => y.2 ≤ x.2) t)
    have hk : ∀ e ∈ List.insertionSort byLengthThenOrder (t.enumFrom (k + 1)), k < e.1 := by
      intro e he
      have hmem : e ∈ t.enumFrom (k + 1) := (List.mem_insertionSort _).mp he
      exact Nat.lt_of_succ_le (le_fst_of_mem_enumFrom t (k + 1) e hmem)
    rw [map_snd_orderedInsert k a _ hk, ih (k + 1)]

/-- The specification's sort (length descending, ties by original catalog
position) is exactly the code's stable descending sort. -/
theorem sortByLengthThenOrder_eq (catalog : List (ScafName × Nat)) :
    sortByLengthThenOrder catalog = descendingLengthTuples catalog := by
  unfold sortByLengthThenOrder descendingLengthTuples
  exact map_snd_insertionSort_enumFrom catalog 0

theorem assignAll_eq_refAssignWalk (target N : Nat) :
    ∀ (l : List (ScafName × Nat)) (i : Nat)
      (lists : List (List ScafName)) (totals : List Nat),
      assignAll target N (l.enumFrom i) (lists, totals) =
        refAssignWalk target N i l lists totals := by
  intro l
  induction l with
  | nil => intro i lists totals; rfl
  | cons s rest ih =>
    intro i lists totals
    rw [List.enumFrom_cons]
    by_cases hcond : totals.getD (i % N) 0 + s.2 < target
    · have hstep : assignStep target N (lists, totals) (i, s) =
          (lists.set (i % N) (lists.getD (i % N) [] ++ [s.1]),
            totals.set (i % N) (totals.getD (i % N) 0 + s.2)) := by
        simp only [assignStep, hcond, if_true]
      have hwalk : refAssignWalk target N i (s :: rest) lists totals =
          refAssignWalk target N (i + 1) rest
            (lists.set (i % N) (lists.getD (i % N) [] ++ [s.1]))
            (totals.set (i % N) (totals.getD (i % N) 0 + s.2)) := by
        simp only [refAssignWalk, hcond, if_true]
      rw [hwalk, ← ih (i + 1)]
      simp only [assignAll, List.foldl_cons, hstep]
    · have hstep : assignStep target N (lists, totals) (i, s) =
          (lists.set (minTotalWorker totals)
              (lists.getD (minTotalWorker totals) [] ++ [s.1]),
            totals.set (minTotalWorker totals)
              (totals.getD (minTotalWorker totals) 0 + s.2)) := by
        rw [minTotalWorker_eq_idxOfFirst]
        simp only [assignStep, hcond, if_false]
      have hwalk : refAssignWalk target N i (s :: rest) lists totals =
          refAssignWalk target N (i + 1) rest
            (lists.set (minTotalWorker totals)
              (lists.getD (minTotalWorker totals) [] ++ [s.1]))
            (totals.set (minTotalWorker totals)
              (totals.getD (minTotalWorker totals) 0 + s.2)) := by
        simp only [refAssignWalk, hcond, if_false]
      rw [hwalk, ← ih (i + 1)]
      simp only [assignAll, List.foldl_cons, hstep]

-- ### Claim C3

/-- Claim C3: for every catalog and N ≥ 1 the planner's output equals the
specification's reference algorithm — target is the total base-pair count
integer-divided by N; scaffolds are walked in length-descending order
with ties in catalog order; scaffold i goes to worker `i mod N` when that
worker's running total plus the length stays strictly below target,
otherwise to the worker with the smallest running total (lowest index on
ties). -/
theorem c3_planner_matches_reference (catalog : List (ScafName × Nat)) (N : Nat)
    (hN : 1 ≤ N) :
    partitionPlan catalog N = some (referencePlan catalog N) := by
  have hne0 : ¬N = 0 := by omega
  rw [partitionPlan, if_neg hne0]
  unfold referencePlan
  rw [sortByLengthThenOrder_eq]
  exact congrArg some (assignAll_eq_refAssignWalk ((catalog.map Prod.snd).sum / N) N
    (descendingLengthTuples catalog) 0 (List.replicate N []) (List.replicate N 0))

/-- Witness for C3 at the worked example of the claim: lengths
`[100, 90, 60, 50]` with N = 2 give worker 0 scaffolds 0 and 3 (150 bp)
and worker 1 scaffolds 1 and 2 (150 bp), on both the code's planner and
the reference algorithm. -/
theorem c3_witness :
    partitionPlan exampleCatalog 2 = some (referencePlan exampleCatalog 2) ∧
      referencePlan exampleCatalog 2 = ([[['a'], ['d']], [['b'], ['c']]], [150, 150]) :=
  ⟨c3_planner_matches_reference exampleCatalog 2 (by decide), rfl⟩

-- ### Catalog acquisition (lines 114-134)

/-- Python `ref_dict.update({k: v})`: replace the value in place when the
key exists (keeping its insertion position), else append. -/
def updateDict (d : List (ScafName × Nat)) (k : ScafName) (v : Nat) : List (ScafName × Nat) :=
  match d with
  | [] => [(k, v)]
  | (k0, v0) :: rest => if k0 = k then (k0, v) :: rest else (k0, v0) :: updateDict rest k v

/-- Python `ref_dict[k]` for a present key (0 where CPython would raise
`KeyError`). -/
def lookupDict (d : List (ScafName × Nat)) (k : ScafName) : Nat :=
  match d with
  | [] => 0
  | (k0, v0) :: rest => if k0 = k then v0 else lookupDict rest k

/-- One step of the comprehension at lines 129-132: an entry is kept only
if its name is truthy (non-empty string) and its parsed length is truthy
(non-zero integer); a kept entry updates `ref_dict` and appends its name
to `reference_names`. -/
def parseStep (st : List (ScafName × Nat) × List ScafName) (e : ScafName × Nat) :
    List (ScafName × Nat) × List ScafName :=
  if e.1 ≠ [] ∧ e.2 ≠ 0 then (updateDict st.1 e.1 e.2, st.2 ++ [e.1]) else st

/-- Lines 127-132: `ref_dict` and `reference_names` built from the
header-declared `(SN, LN)` pairs. -/
def parse_ref_entries (declared : List (ScafName × Nat)) :
    List (ScafName × Nat) × List ScafName :=
  declared.foldl parseStep ([], [])

/-- Line 138's zip: `zip(reference_names, [ref_dict[r] for r in
reference_names])` — the catalog as the planner sees it. -/
def catalogPairs (declared : List (ScafName × Nat)) : List (ScafName × Nat) :=
  (parse_ref_entries declared).2.map fun n => (n, lookupDict (parse_ref_entries declared).1 n)

/-- Lines 114-148 as one function of the header pipeline's observable
outcome: the pipeline's exit status (`pipelineReturncode`, which is awk's
status because the `shell=True` command has no pipefail) and the `(SN,
LN)` pairs parsed from its stdout (`declared`).  `check_returncode` at
lines 123-126 raises `SubprocessError` exactly when the returncode is
non-zero; an unreadable header is NOT that case — `samtools` failing
leaves grep and awk exiting 0 with empty stdout, i.e. returncode 0 and
`declared = []`.  Otherwise the declared pairs are parsed and the planner
runs (`ZeroDivisionError` when `processes = 0`). -/
def planFromRefOrder (pipelineReturncode : Nat) (declared : List (ScafName × Nat))
    (processes : Nat) : Except PipelineError (List (List ScafName) × List Nat) :=
  if pipelineReturncode ≠ 0 then Except.error PipelineError.subprocessError
  else
    match partitionPlan (catalogPairs declared) processes with
    | none => Except.error PipelineError.zeroDivisionError
    | some plan => Except.ok plan

theorem updateDict_of_not_mem :
    ∀ (d : List (ScafName × Nat)) (k : ScafName) (v : Nat), k ∉ d.map Prod.fst →
      updateDict d k v = d ++ [(k, v)] := by
  intro d
  induction d with
  | nil => intro k v _; rfl
  | cons e rest ih =>
    intro k v h
    have hne : ¬e.1 = k := by
      intro hc
      exact h (List.mem_cons.mpr (Or.inl hc.symm))
    have hrest : k ∉ rest.map Prod.fst := fun hc => h (List.mem_cons_of_mem _ hc)
    show updateDict (e :: rest) k v = e :: (rest ++ [(k, v)])
    cases e with
    | mk k0 v0 =>
      simp only [updateDict, hne, if_false, ih k v hrest, List.cons_append]

theorem foldl_parseStep :
    ∀ (declared : List (ScafName × Nat)) (d0 : List (ScafName × Nat)),
      ((d0.map Prod.fst) ++ declared.map Prod.fst).Nodup →
      declared.foldl parseStep (d0, d0.map Prod.fst) =
        (d0 ++ declared.filter fun e => decide (e.1 ≠ [] ∧ e.2 ≠ 0),
          (d0 ++ declared.filter fun e => decide (e.1 ≠ [] ∧ e.2 ≠ 0)).map Prod.fst) := by
  intro declared
  induction declared with
  | nil =>
    intro d0 _
    simp
  | cons e rest ih =>
    intro d0 h
    rw [List.foldl_cons]
    by_cases hkeep : e.1 ≠ [] ∧ e.2 ≠ 0
    · have hnotmem : e.1 ∉ d0.map Prod.fst := by
        intro hc
        rcases List.nodup_append.mp (by simpa using h) with ⟨_, _, hdisj⟩
        exact hdisj hc (List.mem_cons_self _ _)
      have hstep : parseStep (d0, d0.map Prod.fst) e =
          (d0 ++ [e], (d0 ++ [e]).map Prod.fst) := by
        simp only [parseStep]
        rw [if_pos hkeep, updateDict_of_not_mem d0 e.1 e.2 hnotmem, Prod.mk.eta]
        simp
      rw [hstep]
      have hnodup2 : (((d0 ++ [e]).map Prod.fst) ++ rest.map Prod.fst).Nodup := by
        have : ((d0 ++ [e]).map Prod.fst) ++ rest.map Prod.fst =
            (d0.map Prod.fst) ++ (e :: rest).map Prod.fst := by
          simp
        rw [this]
        exact h
      rw [ih (d0 ++ [e]) hnodup2]
      have hfil : (e :: rest).filter (fun e => decide (e.1 ≠ [] ∧ e.2 ≠ 0)) =
          e :: rest.filter fun e => decide (e.1 ≠ [] ∧ e.2 ≠ 0) :=
        List.filter_cons_of_pos (decide_eq_true hkeep)
      rw [hfil]
      simp
    · have hstep : parseStep (d0, d0.map Prod.fst) e = (d0, d0.map Prod.fst) := by
        simp only [parseStep]
        rw [if_neg hkeep]
      rw [hstep]
      have hnodup2 : ((d0.map Prod.fst) ++ rest.map Prod.fst).Nodup := by
        have hsub : List.Sublist ((d0.map Prod.fst) ++ rest.map Prod.fst)
            ((d0.map Prod.fst) ++ (e.1 :: rest.map Prod.fst)) :=
          List.Sublist.append_left (List.sublist_cons_self e.1 (rest.map Prod.fst)) _
        exact (by simpa using h : ((d0.map Prod.fst) ++
          (e.1 :: rest.map Prod.fst)).Nodup).sublist hsub
      rw [ih d0 hnodup2]
      have hfil : (e :: rest).filter (fun e => decide (e.1 ≠ [] ∧ e.2 ≠ 0)) =
          rest.filter fun e => decide (e.1 ≠ [] ∧ e.2 ≠ 0) :=
        List.filter_cons_of_neg (by simpa using hkeep)
      rw [hfil]

theorem map_lookup_self :
    ∀ F : List (ScafName × Nat), (F.map Prod.fst).Nodup →
      (F.map Prod.fst).map (fun n => (n, lookupDict F n)) = F := by
  intro F
  induction F with
  | nil => intro _; rfl
  | cons e rest ih =>
    intro h
    have hhead : e.1 ∉ rest.map Prod.fst := by
      rw [List.map_cons] at h
      exact (List.nodup_cons.mp h).1
    have htail : (rest.map Prod.fst).Nodup := by
      rw [List.map_cons] at h
      exact (List.nodup_cons.mp h).2
    cases e with
    | mk k v =>
      rw [List.map_cons, List.map_cons]
      have h1 : lookupDict ((k, v) :: rest) k = v := by
        simp [lookupDict]
      have h2 : (rest.map Prod.fst).map (fun n => (n, lookupDict ((k, v) :: rest) n)) =
          (rest.map Prod.fst).map fun n => (n, lookupDict rest n) := by
        apply List.map_congr_left
        intro n hn
        have hne : ¬k = n := by
          intro hc
          rw [hc] at hhead
          exact hhead hn
        simp [lookupDict, hne]
      rw [h1, h2, ih htail]

-- ### Claim C9

/-- Claim C9 (amended): for a readable header with distinct scaffold
names, the catalog handed to the planner equals the header-declared
`(name, length)` sequence with entries whose name is empty or whose
length is 0 removed; the surviving entries keep their header order and
values unaltered.  (The removal of zero-length entries is forced by
`c9_counterexample`; the claim as stated required those to be kept.) -/
theorem c9_catalog_drops_falsy_entries (declared : List (ScafName × Nat))
    (hnodup : (declared.map Prod.fst).Nodup) :
    catalogPairs declared = declared.filter fun e => decide (e.1 ≠ [] ∧ e.2 ≠ 0) := by
  unfold catalogPairs parse_ref_entries
  have h0 := foldl_parseStep declared [] (by simpa using hnodup)
  rw [show (([], []) : List (ScafName × Nat) × List ScafName) =
    (([] : List (ScafName × Nat)), ([] : List (ScafName × Nat)).map Prod.fst) from rfl, h0]
  simp only [List.nil_append]
  apply map_lookup_self
  have hsub : List.Sublist
      ((declared.filter fun e => decide (e.1 ≠ [] ∧ e.2 ≠ 0)).map Prod.fst)
      (declared.map Prod.fst) :=
    (List.filter_sublist declared).map Prod.fst
  exact hnodup.sublist hsub

/-- Counterexample for C9 as stated: a header declaring the single entry
`(a, 0)` produces the empty catalog — the zero-length entry is omitted,
while the claim requires every declared entry, including one of
length 0, to be kept. -/
theorem c9_counterexample :
    catalogPairs [(['a'], 0)] = [] ∧ catalogPairs [(['a'], 0)] ≠ [(['a'], 0)] := by
  constructor
  · rfl
  · intro hcontra
    cases hcontra

/-- Witness for C9: a header declaring `(a,5), (b,0), (empty,7), (c,3)`
yields the catalog `(a,5), (c,3)` — order and values of the surviving
entries unaltered. -/
theorem c9_witness :
    catalogPairs [(['a'], 5), (['b'], 0), ([], 7), (['c'], 3)] =
      [(['a'], 5), (['c'], 3)] := by
  have h := c9_catalog_drops_falsy_entries
    [(['a'], 5), (['b'], 0), ([], 7), (['c'], 3)] (by decide)
  rw [h]
  rfl

-- ### Claim C8

/-- Claim C8 (amended): the catalog-and-planning stage cannot detect an
unreadable header — the pipeline's exit status is awk's, so a `samtools`
failure arrives as returncode 0 with no declared entries, identical to a
readable header with no sequence entries, and the stage then succeeds
with N empty worker lists rather than failing with `CatalogUnavailable`;
with worker count 0 it fails with `ZeroDivisionError` (there is no
`InvalidConfiguration` error in the code); for every N ≥ 1 and every
catalog it succeeds.  The line-126 `SubprocessError` is raised exactly
when the pipeline's returncode is non-zero, i.e. when its last command
itself fails, not when the header is unreadable. -/
theorem c8_planner_failure_modes (declared : List (ScafName × Nat)) (N rc : Nat) :
    (rc ≠ 0 → planFromRefOrder rc declared N = Except.error PipelineError.subprocessError) ∧
      planFromRefOrder 0 declared 0 = Except.error PipelineError.zeroDivisionError ∧
      (1 ≤ N → ∃ plan, planFromRefOrder 0 declared N = Except.ok plan) ∧
      (1 ≤ N → planFromRefOrder 0 [] N =
        Except.ok (List.replicate N [], List.replicate N 0)) := by
  refine ⟨?_, ?_, ?_, ?_⟩
  · intro hrc
    simp only [planFromRefOrder]
    rw [if_pos hrc]
  · show (match partitionPlan (catalogPairs declared) 0 with
      | none => Except.error PipelineError.zeroDivisionError
      | some plan => Except.ok plan) = Except.error PipelineError.zeroDivisionError
    rw [partitionPlan, if_pos rfl]
  · intro hN
    have hne0 : ¬N = 0 := by omega
    have hp : ∃ plan, partitionPlan (catalogPairs declared) N = some plan := by
      rw [partitionPlan, if_neg hne0]
      exact ⟨_, rfl⟩
    obtain ⟨plan, hp⟩ := hp
    refine ⟨plan, ?_⟩
    show (match partitionPlan (catalogPairs declared) N with
      | none => Except.error PipelineError.zeroDivisionError
      | some plan => Except.ok plan) = Except.ok plan
    rw [hp]
  · intro hN
    have hne0 : ¬N = 0 := by omega
    have hp : partitionPlan (catalogPairs []) N =
        some (List.replicate N [], List.replicate N 0) := by
      rw [partitionPlan, if_neg hne0]
      rfl
    show (match partitionPlan (catalogPairs []) N with
      | none => Except.error PipelineError.zeroDivisionError
      | some plan => Except.ok plan) =
        Except.ok (List.replicate N [], List.replicate N 0)
    rw [hp]

/-- Counterexample for C8 as stated: with returncode 0 and no declared
entries — the observable outcome both of a header with no sequence
entries and of an unreadable header, whose `samtools` failure the
pipeline masks — and N = 2, the stage succeeds with two empty worker
lists; it does not fail with `CatalogUnavailable` as the claim
requires. -/
theorem c8_counterexample :
    planFromRefOrder 0 [] 2 = Except.ok ([[], []], [0, 0]) := rfl

/-- Witness for C8: the empty catalog with N = 1 succeeds with one empty
worker list. -/
theorem c8_witness : planFromRefOrder 0 [] 1 = Except.ok ([[]], [0]) := by
  have h := (c8_planner_failure_modes [] 1 0).2.2.2 (by decide)
  exact h

-- ### The metrics wait, `wait_for_insert_metrics` (lines 403-423)

/-- Outcome of the wait: the loop saw the process finished at a poll
after `elapsedSeconds`, or it terminated the process and raised
`TimeoutError` (modelled by `timedOut`) with `elapsedSeconds` on the
clock. -/
inductive WaitOutcome where
  | finished (elapsedSeconds : Nat)
  | timedOut (elapsedSeconds : Nat)
deriving DecidableEq, Repr

/-- The default of the `max_wait_minutes` parameter (line 404). -/
def max_wait_minutes_default : Nat := 180

/-- The poll loop of lines 407-423.  The external metrics process is
abstracted by `finishAt`, the wall-clock second from which `poll()` stops
returning `None`.  Each iteration polls; while the process runs it sleeps
10 s, adds 10 to `wait_time`, and — before polling again — terminates the
process and raises `TimeoutError` once `wait_time // 60` has reached
`max_wait_minutes`. -/
def wait_loop (finishAt maxWaitMinutes waitTime : Nat) : WaitOutcome :=
  if finishAt ≤ waitTime then WaitOutcome.finished waitTime
  else if maxWaitMinutes ≤ (waitTime + 10) / 60 then WaitOutcome.timedOut (waitTime + 10)
  else wait_loop finishAt maxWaitMinutes (waitTime + 10)
termination_by 60 * maxWaitMinutes - waitTime
decreasing_by
  simp_wf
  omega

/-- `wait_for_insert_metrics` starts the loop with `wait_time = 0`. -/
def wait_for_insert_metrics (finishAt maxWaitMinutes : Nat) : WaitOutcome :=
  wait_loop finishAt maxWaitMinutes 0

theorem wait_loop_eq (finishAt m t : Nat) :
    wait_loop finishAt m t =
      if finishAt ≤ t then WaitOutcome.finished t
      else if m ≤ (t + 10) / 60 then WaitOutcome.timedOut (t + 10)
      else wait_loop finishAt m (t + 10) := by
  rw [wait_loop]

theorem wait_loop_timedOut (finishAt m : Nat) :
    ∀ (fuel t : Nat), 60 * m - t ≤ fuel → t % 10 = 0 → t + 10 ≤ 60 * m →
      60 * m - 10 < finishAt → wait_loop finishAt m t = WaitOutcome.timedOut (60 * m) := by
  intro fuel
  induction fuel with
  | zero =>
    intro t h1 h2 h3 h4
    exact absurd h3 (by omega)
  | succ fuel ih =>
    intro t h1 h2 h3 h4
    rw [wait_loop_eq]
    have hnf : ¬finishAt ≤ t := by omega
    rw [if_neg hnf]
    rcases Nat.eq_or_lt_of_le h3 with heq | hlt
    · have hcap : m ≤ (t + 10) / 60 := by omega
      rw [if_pos hcap, heq]
    · have hcap : ¬m ≤ (t + 10) / 60 := by omega
      rw [if_neg hcap]
      exact ih (t + 10) (by omega) (by omega) (by omega) h4

theorem wait_loop_finished (finishAt m : Nat) :
    ∀ (fuel t : Nat), 60 * m - t ≤ fuel → t % 10 = 0 → 1 ≤ m →
      finishAt ≤ 60 * m - 10 →
      ∃ t2, wait_loop finishAt m t = WaitOutcome.finished t2 := by
  intro fuel
  induction fuel with
  | zero =>
    intro t h1 h2 hm h4
    rw [wait_loop_eq]
    have hf : finishAt ≤ t := by omega
    rw [if_pos hf]
    exact ⟨t, rfl⟩
  | succ fuel ih =>
    intro t h1 h2 hm h4
    rw [wait_loop_eq]
    by_cases hf : finishAt ≤ t
    · rw [if_pos hf]
      exact ⟨t, rfl⟩
    · rw [if_neg hf]
      have hcap : ¬m ≤ (t + 10) / 60 := by omega
      rw [if_neg hcap]
      exact ih (t + 10) (by omega) (by omega) hm h4

-- ### Claim C6

/-- Claim C6 (amended): the metrics wait enforces a wall-clock cap whose
default is 180 minutes.  A process still unfinished after the last poll
before the cap (later than `60·m − 10` seconds) is terminated and the
wait raises `MetricsTimeout` (the `TimeoutError`) at exactly `60·m`
seconds; a process finishing at or before `60·m − 10` seconds — the last
poll instant before the cap — does not time out.  (The claim as stated
allowed finishing anywhere up to the cap boundary itself; by
`c6_counterexample` a process finishing inside the final 10-second sleep,
including exactly at the boundary, is still timed out, because the cap
check runs before the next poll.) -/
theorem c6_metrics_wait_cap (finishAt m : Nat) (hm : 1 ≤ m) :
    max_wait_minutes_default = 180 ∧
      (60 * m - 10 < finishAt →
        wait_for_insert_metrics finishAt m = WaitOutcome.timedOut (60 * m)) ∧
      (finishAt ≤ 60 * m - 10 →
        ∃ t2, wait_for_insert_metrics finishAt m = WaitOutcome.finished t2) := by
  refine ⟨rfl, ?_, ?_⟩
  · intro h
    exact wait_loop_timedOut finishAt m (60 * m) 0 (by omega) (by omega) (by omega) h
  · intro h
    exact wait_loop_finished finishAt m (60 * m) 0 (by omega) (by omega) hm h

/-- Witness for C6: with the default 180-minute cap, a metrics process
that would finish at 20000 s is terminated at 10800 s (180 min) with the
timeout. -/
theorem c6_witness :
    wait_for_insert_metrics 20000 180 = WaitOutcome.timedOut 10800 :=
  (c6_metrics_wait_cap 20000 180 (by decide)).2.1 (by decide)

/-- Counterexample for C6 as stated: a metrics process finishing at
exactly the cap boundary (10800 s = 180 min, the default cap) is
nonetheless timed out — the loop's cap check fires after the final sleep
and before the poll that would have observed the finished process. -/
theorem c6_counterexample :
    10800 ≤ 60 * max_wait_minutes_default ∧
      wait_for_insert_metrics 10800 max_wait_minutes_default =
        WaitOutcome.timedOut 10800 := by
  constructor
  · decide
  · exact wait_loop_timedOut 10800 180 10800 0 (by omega) (by omega) (by omega) (by omega)
